import Mathlib

/-!
# Verification of the UniScrape document pipeline

Shallow embedding of the `uniscrape` package (text normalisation,
document classification, institution extraction from NER spans, metrics,
and the two batch orchestration loops), with theorems settling the
specification claims against it.

Strings are modelled as `List Char`; external collaborators (the spaCy
NER tagger, the OpenAI calls, the `emoji` library, `textstat`) appear as
explicit inputs or function parameters, exactly at the points where the
source calls them.
-/

namespace UniScrape

/-! ## Character predicates

`remove_special_characters` (process_text.py, lines 18-31) filters with the
negated character class `[^A-Za-z0-9\s.,;:'"?!\-ąćęłńóśźżĄĆĘŁŃÓŚŹŻ]`.
Python's `re` in Unicode mode lets `\s` match exactly the characters for
which `str.isspace()` holds, so one whitespace predicate serves both the
regex and the final `str.strip()`. -/

/-- Python whitespace (`str.isspace` / `re` `\s` on `str` patterns). -/
def pyWs (c : Char) : Bool :=
  c = ' ' || (0x09 ≤ c.toNat && c.toNat ≤ 0x0d) ||
  (0x1c ≤ c.toNat && c.toNat ≤ 0x1f) ||
  c.toNat = 0x85 || c.toNat = 0xa0 || c.toNat = 0x1680 ||
  (0x2000 ≤ c.toNat && c.toNat ≤ 0x200a) ||
  c.toNat = 0x2028 || c.toNat = 0x2029 || c.toNat = 0x202f ||
  c.toNat = 0x205f || c.toNat = 0x3000

/-- The nine Polish accented letters of the allow-list, lowercase. -/
def polishLower : List Char := ['ą', 'ć', 'ę', 'ł', 'ń', 'ó', 'ś', 'ź', 'ż']

/-- The nine Polish accented letters of the allow-list, uppercase. -/
def polishUpper : List Char := ['Ą', 'Ć', 'Ę', 'Ł', 'Ń', 'Ó', 'Ś', 'Ź', 'Ż']

/-- Membership in the allow-list character class of
`remove_special_characters`: ASCII letters and digits, Python whitespace,
the punctuation set `. , ; : ' " ? ! -`, and the Polish accented letters. -/
def allowedChar (c : Char) : Bool :=
  ('A' ≤ c && c ≤ 'Z') || ('a' ≤ c && c ≤ 'z') || ('0' ≤ c && c ≤ '9') ||
  pyWs c ||
  c ∈ ['.', ',', ';', ':', '\'', '"', '?', '!', '-'] ||
  c ∈ polishLower || c ∈ polishUpper

/-! ## `batch_loader_for_LLM` (process_text.py, lines 39-41)

```python
def batch_loader_for_LLM(text, max_chunk_size=5000):
    for i in range(0, len(text), max_chunk_size):
        yield text[i:i+max_chunk_size]
```

`range` with step `0` raises `ValueError` in Python, so the generator is
only defined for `max_chunk_size ≥ 1`; the `0` case below returns `[]` and
is outside every claim. -/

def batch_loader_for_LLM : List Char → Nat → List (List Char)
  | [], _ => []
  | _ :: _, 0 => []
  | c :: l, k + 1 =>
      (c :: l).take (k + 1) :: batch_loader_for_LLM ((c :: l).drop (k + 1)) (k + 1)
termination_by l _ => l.length
decreasing_by
  simp only [List.length_drop, List.length_cons]
  omega

/-! ## Document classifier (process_text.py, lines 152-207)

`classify_document(url, title, api)` first scans a keyword table against
the URL (Python substring test `value in url`), and otherwise calls
`classify_document_with_LLM(url, title, api)`.

The source writes the table as a dict literal

```python
keywords = {'Article': 'artykul',
            'Instruction': 'instrukcje',
            'Statute': 'regulamin',
            'Statute': 'uchwala',
            'Forms': 'formularz'}
```

with the key `'Statute'` given twice; Python keeps only the later value,
so the runtime dict maps `'Statute'` to `'uchwala'` and the pair
`('Statute', 'regulamin')` is silently dropped. The embedding models the
runtime dict (insertion order, later duplicate wins). -/

inductive DocType
  | Instruction
  | Article
  | Statute
  | Forms
deriving DecidableEq, Repr

/-- Python substring test `needle in hay`. -/
def substrB (needle : List Char) : List Char → Bool
  | [] => needle.isEmpty
  | c :: t => needle.isPrefixOf (c :: t) || substrB needle t

/-- The classifier keyword table as it exists at runtime: the duplicate
`'Statute'` key means `'regulamin'` is not in the table. -/
def classifyKeywords : List (DocType × List Char) :=
  [(.Article, "artykul".data),
   (.Instruction, "instrukcje".data),
   (.Statute, "uchwala".data),
   (.Forms, "formularz".data)]

/-- The heuristic first tier of `classify_document`: first keyword whose
value is a substring of the URL. -/
def classifyHeuristic (url : List Char) : Option DocType :=
  classifyKeywords.findSome? fun kv => if substrB kv.2 url then some kv.1 else none

/-- `classify_document`, with the LLM collaborator as a parameter. The
second component records the `(text, title)` argument pair handed to
`classify_document_with_LLM` when the fallback fires — the source passes
the *URL* as the `text` argument (`classify_document_with_LLM(url, title,
api)`); the document body never reaches `classify_document` at all. -/
def classify_document (url title : List Char)
    (llm : List Char → List Char → DocType) :
    DocType × Option (List Char × List Char) :=
  match classifyHeuristic url with
  | some k => (k, none)
  | none => (llm url title, some (url, title))

/-! ## Text normalizer `remove_special_characters` (process_text.py, lines 18-31)

```python
text = re.sub(special_chars, '', text)        # drop chars outside the allow-list
text = emoji.replace_emoji(text, replace="")  # drop emoji
text = re.sub(r'\n\s*\n', '\n\n', text)       # collapse blank-line runs
return text.strip()
```

The blank-line substitution scans left to right; at a `'\n'` the greedy
`\s*` followed by `\n` consumes up to the **last** newline inside the
maximal whitespace run that follows, and the whole match is replaced by
`"\n\n"`; scanning resumes after the replacement. `subBlank` below is
that operational semantics. The `emoji` library's emoji set is external;
it enters as a `Char → Bool` parameter. -/

/-- Index of the last `'\n'` in a list, if any. -/
def lastNlIdx : List Char → Option Nat
  | [] => none
  | c :: rest =>
    match lastNlIdx rest with
    | some i => some (i + 1)
    | none => if c = '\n' then some 0 else none

/-- Python `re.sub(r'\n\s*\n', '\n\n', text)`: on meeting `'\n'`, if the
following maximal whitespace run contains a newline, the match extends to
the last such newline and is replaced by two newlines. -/
def subBlank : List Char → List Char
  | [] => []
  | c :: rest =>
    if c = '\n' then
      match lastNlIdx (rest.takeWhile pyWs) with
      | some m => '\n' :: '\n' :: subBlank (rest.drop (m + 1))
      | none => c :: subBlank rest
    else c :: subBlank rest
termination_by l => l.length
decreasing_by
  all_goals simp only [List.length_drop, List.length_cons]
  all_goals omega

/-- Python `str.strip()`: remove leading and trailing whitespace. -/
def stripList (l : List Char) : List Char :=
  ((l.dropWhile pyWs).reverse.dropWhile pyWs).reverse

/-- `remove_special_characters(text)`: allow-list filter, emoji removal
(the `emoji` collaborator's emoji test is the parameter), blank-line
collapsing, final strip. -/
def remove_special_characters (isEmoji : Char → Bool) (s : List Char) : List Char :=
  stripList (subBlank ((s.filter allowedChar).filter fun c => !isEmoji c))

/-- A concrete stand-in for the `emoji` library's emoji test, used to
instantiate witnesses: the pictographic planes `U+1F300`-`U+1FAFF`. The
theorems only ever assume the emoji set is disjoint from the allow-list,
which holds for the real library as well. -/
def isEmojiModel (c : Char) : Bool :=
  0x1F300 ≤ c.toNat && c.toNat ≤ 0x1FAFF

/-- Output shape the blank-line substitution should guarantee: no newline
is followed, inside its whitespace run, by a second newline other than an
immediately adjacent one — i.e. every blank-line run is exactly one blank
line. -/
def noBadBlank : List Char → Bool
  | [] => true
  | c :: t =>
    (if c = '\n' then
      match lastNlIdx (t.takeWhile pyWs) with
      | some (_ + 1) => false
      | _ => true
     else true) && noBadBlank t


/-! ## Metrics engine `Analyzer.get_metrics` (metrics.py, lines 22-97)

The spaCy tagging is the external collaborator: the token list and the
sentence segmentation (`len(sentence)` counts the tokens of a sentence
span) are inputs. `textstat.gunning_fog(text)` is likewise an input; the
source consults it only when `words > 0`. Floats are modelled as `ℚ`;
Python's `round(x, 4)` rounds half to even. -/

structure SpacyToken where
  text : List Char
  lemmaTxt : String
  pos : String
  isPunct : Bool
  isSpace : Bool
deriving DecidableEq, Repr

structure Metrics where
  characters : Nat
  words : Nat
  sentences : Nat
  nouns : Nat
  verbs : Nat
  adjectives : Nat
  avgWordLength : ℚ
  avgSentenceLength : ℚ
  lexicalDensity : ℚ
  gunningFog : ℚ
deriving DecidableEq, Repr

/-- Python `round(x, 4)` (half to even). -/
def pyRound4 (q : ℚ) : ℚ :=
  let x := q * 10000
  let f := ⌊x⌋
  let r := x - f
  let n : ℤ :=
    if r < 1/2 then f
    else if 1/2 < r then f + 1
    else if Even f then f else f + 1
  (n : ℚ) / 10000

/-- `Analyzer.get_metrics`. A token counts as a word when it is neither
punctuation nor whitespace; `camel_case` and `capitalized_words` are
computed by the source but do not reach the returned dict, so they are
omitted. -/
def get_metrics (text : List Char) (doc : List SpacyToken) (sentLens : List Nat)
    (gfScore : ℚ) : Metrics :=
  let wordToks := doc.filter fun t => !t.isPunct && !t.isSpace
  let words := wordToks.length
  let uniqueWords := (wordToks.map (·.lemmaTxt)).dedup
  let sumWordLen := (wordToks.map fun t => t.text.length).sum
  let sentences := sentLens.length
  let sumSentLen := sentLens.sum
  { characters := text.length
    words := words
    sentences := sentences
    nouns := (wordToks.filter fun t => t.pos = "NOUN").length
    verbs := (wordToks.filter fun t => t.pos = "VERB").length
    adjectives := (wordToks.filter fun t => t.pos = "ADJ").length
    avgWordLength := pyRound4 (if words ≠ 0 then (sumWordLen : ℚ) / words else 0)
    avgSentenceLength := pyRound4 (if sentences ≠ 0 then (sumSentLen : ℚ) / sentences else 0)
    lexicalDensity := pyRound4 (if words ≠ 0 then (uniqueWords.length : ℚ) / words else 0)
    gunningFog := pyRound4 (if 0 < words then gfScore else 0) }

/-! ## Batch orchestration

### URL batch: `Scraper.start_scraper` (scraper.py, lines 140-213)

Per item the loop: skips URLs already in the visited ledger; scrapes and
enriches inside a per-item `try`; if `len(result) > min_text_len`,
builds the record, bumps the count, and (when database access is
enabled) hands the record to `db.append_to_database`; appends the URL to
the visited ledger; an exception anywhere in the item's `try` is caught,
logged, and the loop continues with the next item.

An item is modelled by its externally determined fate: `fails` stands
for an unhandled exception while fetching/enriching (before the length
gate), `persistFails` for `db.append_to_database` raising after being
handed the record.

### PDF batch: `Pdf.start_scraper_pdf` (pdf.py, lines 178-226)

Same shape — except there is no `min_text_len` gate, and the single
`try` wraps the **whole** `for` loop, so the first unhandled exception
ends the batch (the remaining files are not processed; the function
still returns normally). -/

structure ScrapeConfig where
  minTextLen : Nat
  allowDb : Bool
deriving DecidableEq, Repr

structure UrlItem where
  url : String
  fails : Bool
  persistFails : Bool
  title : String
  content : List Char
deriving DecidableEq, Repr

/-- Observable orchestrator state: the visited ledger, the records handed
to the persistence collaborator (source id and content), and
`scraped_count`. -/
structure ScrapeState where
  visited : List String
  db : List (String × List Char)
  count : Nat
deriving DecidableEq, Repr

/-- One iteration of the `start_scraper` loop. -/
def scraperStep (cfg : ScrapeConfig) (st : ScrapeState) (it : UrlItem) : ScrapeState :=
  if it.url ∈ st.visited then st
  else if it.fails then st
  else if cfg.minTextLen < it.content.length then
    let st1 : ScrapeState :=
      { st with db := st.db ++ (if cfg.allowDb then [(it.url, it.content)] else []),
                count := st.count + 1 }
    if cfg.allowDb && it.persistFails then st1
    else { st1 with visited := st1.visited ++ [it.url] }
  else { st with visited := st.visited ++ [it.url] }

/-- `Scraper.start_scraper` over a batch. -/
def runScraper (cfg : ScrapeConfig) (st : ScrapeState) (items : List UrlItem) : ScrapeState :=
  items.foldl (scraperStep cfg) st

structure PdfItem where
  name : String
  isPdf : Bool
  fails : Bool
  persistFails : Bool
  content : List Char
deriving DecidableEq, Repr

/-- `Pdf.start_scraper_pdf` over a directory listing. `isPdf` is the
`.endswith(".pdf")` test; `fails` is an unhandled exception while
scraping/enriching the file — it propagates to the `try` surrounding the
whole loop, so processing stops (the state so far is returned, the
function does not raise). -/
def runPdf (cfg : ScrapeConfig) (st : ScrapeState) : List PdfItem → ScrapeState
  | [] => st
  | it :: rest =>
    if !it.isPdf then runPdf cfg st rest
    else if it.name ∈ st.visited then runPdf cfg st rest
    else if it.fails then st
    else
      let st1 : ScrapeState :=
        { st with db := st.db ++ (if cfg.allowDb then [(it.name, it.content)] else []) }
      if cfg.allowDb && it.persistFails then st1
      else runPdf cfg { st1 with visited := st1.visited ++ [it.name],
                                 count := st1.count + 1 } rest

/-! ## Institution extractor `Pdf._get_institution_name_from_pdf` (pdf.py, lines 57-154)

The `while` loop's body ends in an unconditional `return`, so exactly one
1000-character window is ever processed. Inside the window the text is
prepared (`[\n\r]` to spaces, `strip`, whitespace runs collapsed to a
single space by `re.sub(r"\s+", ' ', text)`), handed to the spaCy NER
collaborator, and then three passes run over the entities:

1. a scan that returns an `orgName` entity's text at once when
   `check_if_full_name` accepts it, and otherwise builds the ORG
   candidate list (an ORG closed by a later `placeName` entity whose
   start lies within 90 characters of the **start** of the ORG; an open
   candidate is popped when the next ORG arrives and at end of scan)
   alongside the PLACE list;
2. a loop over the surviving ORG candidates returning the first slice
   `text_stripped[org_start:org_end]` matched by
   `rf"{regex_school_type}.*{place_name}"`;
3. a loop over the PLACE entities testing the backward window
   `text_stripped[place_start-90 : place_end]` against the STATUT
   variant (group kept as a fallback) and the plain variant (returned at
   once), and finally `return institution_name_statut if not None else
   institution_name_org` — since `not None` is `True`, this is always
   the statute fallback.

Regex search is embedded operationally (leftmost start, Python's
backtracking order, greedy `.*` and `{1,7}`). Because `text_stripped`
collapses every whitespace run to a single space it never contains a
newline, so `.` is modelled as matching any character. `re.IGNORECASE`
is modelled by case-folding both window and pattern with `pyLower`. -/

/-- Unicode lowercasing restricted to the characters the pipeline's
cleaned text can contain (ASCII plus the Polish letters of the
allow-list). -/
def pyLower (c : Char) : Char :=
  if 'A' ≤ c && c ≤ 'Z' then Char.ofNat (c.toNat + 32)
  else if c = 'Ą' then 'ą' else if c = 'Ć' then 'ć' else if c = 'Ę' then 'ę'
  else if c = 'Ł' then 'ł' else if c = 'Ń' then 'ń' else if c = 'Ó' then 'ó'
  else if c = 'Ś' then 'ś' else if c = 'Ź' then 'ź' else if c = 'Ż' then 'ż'
  else c

def lowerL (l : List Char) : List Char := l.map pyLower

/-- Python slice `l[a:b]` (clamping). -/
def slice (l : List Char) (a b : Nat) : List Char := (l.drop a).take (b - a)

/-- `needle` occurs in `hay` starting at index `i`. -/
def occursAt (hay needle : List Char) (i : Nat) : Bool :=
  needle.isPrefixOf (hay.drop i)

/-- The `regex_school_type` alternation (pdf.py line 70), in source
order, lowercase. -/
def schoolWords : List (List Char) :=
  ["szkoła".data, "samorządowa szkoła".data, "uniwersytet".data, "uczelnia".data,
   "akademia".data, "instytut".data, "wydział".data, "zakład".data, "katedra".data,
   "technikum".data, "liceum".data, "zespół".data, "zespół szkół".data,
   "politechnika".data, "wyższa".data]

/-- `[XIVL]` under `IGNORECASE`, on lowered text. -/
def romanChar (c : Char) : Bool := c = 'x' || c = 'i' || c = 'v' || c = 'l'

/-- Character at index `i` is whitespace. -/
def wsAt (w : List Char) (i : Nat) : Bool :=
  match w[i]? with
  | some c => pyWs c
  | none => false

/-- Ends of the alternatives of `regex_school_type` matching at `i`, in
the engine's trial order. -/
def schoolAltEnds (w : List Char) (i : Nat) : List Nat :=
  schoolWords.filterMap fun word =>
    if occursAt w word i then some (i + word.length) else none

/-- Ends of `regex_start = ([XIVL]{1,7}\s)?{regex_school_type}` matching
at `i`, in the engine's trial order: the optional group first (greedy,
longer Roman runs first), then the bare school word. -/
def pEnds (w : List Char) (i : Nat) : List Nat :=
  (((List.range 7).map fun t => 7 - t).flatMap fun r =>
    if ((w.drop i).take r).length = r && ((w.drop i).take r).all romanChar
        && wsAt w (i + r) then
      schoolAltEnds w (i + r + 1)
    else []) ++ schoolAltEnds w i

/-- Greedy `.*{place}` from position `e`: the end of the **last**
occurrence of `place` starting at or after `e`, if any. -/
def tailEnd (w place : List Char) (e : Nat) : Option Nat :=
  (((List.range (w.length + 1)).filter fun j => e ≤ j && occursAt w place j).getLast?).map
    (· + place.length)

/-- `re.search(rf"{regex_school_type}.*{place_name}", span)` as a
truth-value (phase 2 only tests whether the search fired). -/
def searchTypePlace (w place : List Char) : Bool :=
  (List.range (w.length + 1)).any fun i =>
    (schoolAltEnds w i).any fun e => (tailEnd w place e).isSome

/-- `re.search(rf"{regex_start}.*{place_name}", window)`: leftmost start
`i`, first path in trial order whose greedy tail succeeds; returns the
span of `match.group()`. -/
def searchStartEnd (w place : List Char) : Option (Nat × Nat) :=
  (List.range (w.length + 1)).findSome? fun i =>
    ((pEnds w i).findSome? fun e => tailEnd w place e).map fun fin => (i, fin)

/-- `STATUT` / `STATUC` occurs at `i` (lowered text). -/
def statutAt (w : List Char) (i : Nat) : Bool :=
  occursAt w "statut".data i || occursAt w "statuc".data i

/-- End of the group `({regex_start}.*{place_name})` started at `g`. -/
def groupEndAt (w place : List Char) (g : Nat) : Option Nat :=
  (pEnds w g).findSome? fun e => tailEnd w place e

/-- `re.search(rf"STATU(?:T|C).*\s+({regex_start}.*{place_name})",
window)`: leftmost `STATUT`/`STATUC` occurrence at `i` admitting a group;
the greedy `.*\s+` puts the group at the largest `g ≥ i + 7` preceded by
a whitespace character; returns the span of `match.group(1)`. -/
def match1Group (w place : List Char) : Option (Nat × Nat) :=
  (List.range (w.length + 1)).findSome? fun i =>
    if statutAt w i then
      (((List.range (w.length + 1)).filter fun g =>
          i + 7 ≤ g && wsAt w (g - 1) && (groupEndAt w place g).isSome).getLast?).bind
        fun g => (groupEndAt w place g).map fun e => (g, e)
    else none

inductive EntLabel
  | placeName
  | orgName
  | otherEnt
deriving DecidableEq, Repr

/-- A spaCy entity over `text_stripped`: label, `ent.text`,
`ent.start_char`. -/
structure Ent where
  label : EntLabel
  text : List Char
  start : Nat
deriving DecidableEq, Repr

/-- An entry of the mutable `orgs` list:
`[organization_text, start_index, end_index, place_text]`. -/
structure OrgCand where
  name : List Char
  start : Nat
  stop : Option Nat
  place : Option (List Char)
deriving DecidableEq, Repr

/-- An entry of the `places` list:
`(place_name, start_index, place_start_char)`. -/
structure PlaceCand where
  name : List Char
  windowStart : Nat
  start : Nat
deriving DecidableEq, Repr

/-- `if orgs: if orgs[-1][2] == None: orgs.pop()`. -/
def popOpen (orgs : List OrgCand) : List OrgCand :=
  match orgs.getLast? with
  | some o => if o.stop = none then orgs.dropLast else orgs
  | none => orgs

/-- The entity scan (pdf.py lines 98-124): `placeName` entities extend
`places` and may close (or re-close) the most recent ORG candidate when
`place_index - org_ind < 90` — both indices are `start_char`s; `orgName`
entities are returned at once when `check_if_full_name` accepts them
(modelled as `.error`, pdf.py line 115), and otherwise pop an open
predecessor and open a new candidate. After the scan a trailing open
candidate is popped. -/
def scanEnts (checkFull : List Char → Bool) :
    List Ent → List OrgCand → List PlaceCand →
    Except (List Char) (List OrgCand × List PlaceCand)
  | [], orgs, places => .ok (popOpen orgs, places)
  | e :: rest, orgs, places =>
    if e.label = .placeName then
      let placeIndex := e.start
      let places' := places ++ [⟨e.text, placeIndex - 90, placeIndex⟩]
      let orgs' :=
        match orgs.getLast? with
        | some o =>
          if (placeIndex : Int) - (o.start : Int) < 90 then
            orgs.dropLast ++
              [{ o with stop := some (placeIndex + e.text.length), place := some e.text }]
          else orgs
        | none => orgs
      scanEnts checkFull rest orgs' places'
    else if e.label = .orgName then
      if checkFull e.text then .error e.text
      else scanEnts checkFull rest (popOpen orgs ++ [⟨e.text, e.start, none, none⟩]) places
    else scanEnts checkFull rest orgs places

/-- `text_stripped[org_start:org_end]` for a closed candidate. Every
candidate surviving the scan is closed; the `.getD 0` default is
unreachable. -/
def orgSpan (ts : List Char) (o : OrgCand) : List Char :=
  slice ts o.start (o.stop.getD 0)

/-- Phase 2 test (pdf.py lines 128-133): does
`rf"{regex_school_type}.*{place_name}"` fire on the candidate's slice? -/
def orgMatchesB (ts : List Char) (o : OrgCand) : Bool :=
  searchTypePlace (lowerL (orgSpan ts o)) (lowerL (o.place.getD []))

/-- Phase 3 (pdf.py lines 135-153): per PLACE backward window, the
STATUT variant updates the fallback, the plain variant returns at once;
at the end `institution_name_statut if not None else
institution_name_org` always evaluates to the statute fallback. -/
def phase3 (ts : List Char) : List PlaceCand → Option (List Char) → Option (List Char)
  | [], statut => statut
  | p :: rest, statut =>
    let w := slice ts p.windowStart (p.start + p.name.length)
    let lw := lowerL w
    let lp := lowerL p.name
    let statut' :=
      match match1Group lw lp with
      | some (g, e) => some (slice w g e)
      | none => statut
    match searchStartEnd lw lp with
    | some (i, e) => some (slice w i e)
    | none => phase3 ts rest statut'

/-- `_get_institution_name_from_pdf` after window preparation: the three
passes over the entity sequence. `checkFull` is `check_if_full_name`
(regex plus a second spaCy call — external); `ts` is `text_stripped`;
`ents` is `nlp(text_stripped).ents`. -/
def extractInstitution (checkFull : List Char → Bool) (ts : List Char)
    (ents : List Ent) : Option (List Char) :=
  match scanEnts checkFull ents [] [] with
  | .error t => some t
  | .ok (orgs, places) =>
    match orgs.find? (orgMatchesB ts) with
    | some o => some (orgSpan ts o)
    | none => phase3 ts places none

/-- The ORG candidate list the scan leaves behind (no early return). -/
def scanOrgs (checkFull : List Char → Bool) (ents : List Ent) : List OrgCand :=
  match scanEnts checkFull ents [] [] with
  | .ok (orgs, _) => orgs
  | .error _ => []

/-- The PLACE list the scan leaves behind (no early return). -/
def scanPlaces (checkFull : List Char → Bool) (ents : List Ent) : List PlaceCand :=
  match scanEnts checkFull ents [] [] with
  | .ok (_, places) => places
  | .error _ => []

/-- `re.sub(r"\s+", ' ', text)`: collapse every whitespace run to a
single space. -/
def collapseWs : List Char → List Char
  | [] => []
  | c :: rest =>
    if pyWs c then ' ' :: collapseWs (rest.dropWhile pyWs)
    else c :: collapseWs rest
termination_by l => l.length
decreasing_by
  all_goals simp only [List.length_cons]
  · exact Nat.lt_succ_of_le (List.dropWhile_sublist _).length_le
  · exact Nat.lt_succ_self _

/-- Window preparation (pdf.py lines 59-91): first 1000 characters,
`[\n\r]` to spaces, `strip`, whitespace runs collapsed. Only this first
window is ever analysed, because the loop body ends in an unconditional
`return`. -/
def prepWindow (textOrg : List Char) : List Char :=
  collapseWs (stripList ((textOrg.take 1000).map fun c =>
    if c = '\n' || c = '\r' then ' ' else c))

/-- `_get_institution_name_from_pdf` end to end, the spaCy pipeline being
the `ner` parameter. -/
def getInstitutionNameFromPdf (checkFull : List Char → Bool)
    (ner : List Char → List Ent) (textOrg : List Char) : Option (List Char) :=
  let ts := prepWindow textOrg
  extractInstitution checkFull ts (ner ts)

/-! ### Declarative descriptions of the candidate-building pass

Two specification-side readings of which ORG entities survive the scan,
to be compared with `scanEnts`: `keptOrgsClaim` transcribes the claim
(the ORG span's **end** within 90 characters of the start of a following
PLACE), `keptOrgsCode` the source (the ORG's **start**, and only PLACE
entities before the next ORG can close it). -/

/-- Claim-side closing rule: some following PLACE starts within 90
characters of the ORG span's end. -/
def closedByClaim (e : Ent) : List Ent → Bool
  | [] => false
  | f :: t =>
    if f.label = .placeName &&
        ((f.start : Int) - ((e.start : Int) + e.text.length) < 90) then true
    else closedByClaim e t

/-- The candidate `(text, start)` pairs the claim predicts. -/
def keptOrgsClaim : List Ent → List (List Char × Nat)
  | [] => []
  | e :: rest =>
    (if e.label = .orgName && closedByClaim e rest then [(e.text, e.start)] else []) ++
      keptOrgsClaim rest

/-- Source-side closing rule: some PLACE before the next ORG starts
within 90 characters of the ORG's start. -/
def closedByCode (start : Nat) : List Ent → Bool
  | [] => false
  | f :: t =>
    if f.label = .orgName then false
    else if f.label = .placeName && ((f.start : Int) - (start : Int) < 90) then true
    else closedByCode start t

/-- The candidate `(text, start)` pairs the source keeps. -/
def keptOrgsCode : List Ent → List (List Char × Nat)
  | [] => []
  | e :: rest =>
    (if e.label = .orgName && closedByCode e.start rest then [(e.text, e.start)] else []) ++
      keptOrgsCode rest

/-- The contribution of the scan accumulator's last entry to the final
candidate list (proof bookkeeping for the characterisation of
`scanEnts`). -/
def lastContrib (orgs : List OrgCand) (ents : List Ent) : List (List Char × Nat) :=
  match orgs.getLast? with
  | none => []
  | some o =>
    if o.stop ≠ none ∨ closedByCode o.start ents = true then [(o.name, o.start)] else []

/-! # Theorems

## Properties of `batch_loader_for_LLM` -/

theorem batch_loader_nil (k : Nat) : batch_loader_for_LLM [] k = [] := by
  rw [batch_loader_for_LLM]

theorem batch_loader_cons (k : Nat) (c : Char) (l : List Char) :
    batch_loader_for_LLM (c :: l) (k + 1) =
      (c :: l).take (k + 1) :: batch_loader_for_LLM ((c :: l).drop (k + 1)) (k + 1) := by
  rw [batch_loader_for_LLM]

/-- Concatenating the chunks restores the text. -/
theorem batch_loader_join (text : List Char) (k : Nat) (hk : 1 ≤ k) :
    (batch_loader_for_LLM text k).flatten = text := by
  induction text, k using batch_loader_for_LLM.induct with
  | case1 => simp [batch_loader_nil]
  | case2 c l => omega
  | case3 c l k ih =>
    rw [batch_loader_cons, List.flatten_cons, ih (by omega)]
    exact List.take_append_drop _ _

/-- Every chunk has length at most the chunk size. -/
theorem batch_loader_le (text : List Char) (k : Nat) (hk : 1 ≤ k) :
    ∀ c ∈ batch_loader_for_LLM text k, c.length ≤ k := by
  induction text, k using batch_loader_for_LLM.induct with
  | case1 => simp [batch_loader_nil]
  | case2 c l => omega
  | case3 c l k ih =>
    rw [batch_loader_cons]
    intro ch hch
    rcases List.mem_cons.1 hch with h | h
    · subst h; exact (List.length_take _ _).le.trans (Nat.min_le_left _ _)
    · exact ih (by omega) _ h

/-- The `i`-th chunk is `text[i*k : i*k + k]`: the chunks are the
consecutive slices of the text, in order. -/
theorem batch_loader_get (text : List Char) (k : Nat) (hk : 1 ≤ k) (i : Nat)
    (hi : i < (batch_loader_for_LLM text k).length) :
    (batch_loader_for_LLM text k)[i] = (text.drop (i * k)).take k := by
  induction text, k using batch_loader_for_LLM.induct generalizing i with
  | case1 => rw [batch_loader_nil] at hi; simp at hi
  | case2 c l => omega
  | case3 c l k ih =>
    simp only [batch_loader_cons] at hi ⊢
    match i with
    | 0 => simp
    | i + 1 =>
      have := ih (by omega) i (by simpa using Nat.lt_of_succ_lt_succ hi)
      simp only [List.getElem_cons_succ, this, List.drop_drop]
      congr 1
      simp only [Nat.succ_eq_add_one]
      ring_nf

/-- Every chunk except possibly the last has length exactly the chunk size. -/
theorem batch_loader_full (text : List Char) (k : Nat) (hk : 1 ≤ k) (i : Nat)
    (hi : i + 1 < (batch_loader_for_LLM text k).length) :
    ((batch_loader_for_LLM text k).get ⟨i, Nat.lt_of_succ_lt hi⟩).length = k := by
  simp only [List.get_eq_getElem]
  induction text, k using batch_loader_for_LLM.induct generalizing i with
  | case1 => rw [batch_loader_nil] at hi; simp at hi
  | case2 c l => omega
  | case3 c l k ih =>
    simp only [batch_loader_cons] at hi ⊢
    match i with
    | 0 =>
      simp only [List.getElem_cons_zero, List.length_take, List.length_cons]
      have hne : batch_loader_for_LLM ((c :: l).drop (k + 1)) (k + 1) ≠ [] := by
        intro h
        rw [h] at hi
        simp at hi
      have hd : (c :: l).drop (k + 1) ≠ [] := by
        intro h
        rw [h] at hne
        exact hne (batch_loader_nil _)
      have := List.length_lt_of_drop_ne_nil hd
      simp only [List.length_cons] at this
      omega
    | i + 1 =>
      have := ih (by omega) i (by simpa using Nat.lt_of_succ_lt_succ hi)
      simpa using this

/-! ## Normalizer lemmas: the blank-line substitution and strip -/

-- basic unfolding lemmas
theorem subBlank_nil : subBlank [] = [] := by rw [subBlank]

theorem subBlank_cons_not {c : Char} (rest : List Char) (h : ¬ c = '\n') :
    subBlank (c :: rest) = c :: subBlank rest := by
  rw [subBlank]
  simp [h]

theorem subBlank_cons_nl_none (rest : List Char)
    (h : lastNlIdx (rest.takeWhile pyWs) = none) :
    subBlank ('\n' :: rest) = '\n' :: subBlank rest := by
  rw [subBlank]
  simp [h]

theorem subBlank_cons_nl_some (rest : List Char) (m : Nat)
    (h : lastNlIdx (rest.takeWhile pyWs) = some m) :
    subBlank ('\n' :: rest) = '\n' :: '\n' :: subBlank (rest.drop (m + 1)) := by
  rw [subBlank]
  simp [h]

theorem lastNlIdx_eq_none_iff (l : List Char) : lastNlIdx l = none ↔ '\n' ∉ l := by
  induction l with
  | nil => simp [lastNlIdx]
  | cons c rest ih =>
    rw [lastNlIdx]
    rcases h : lastNlIdx rest with _ | i
    · rw [h] at ih
      by_cases hc : c = '\n' <;> simp [hc, ih.1 rfl, eq_comm]
    · have : '\n' ∈ rest := by
        by_contra hmem
        rw [ih.2 hmem] at h
        exact Option.noConfusion h
      simp [this]

theorem lastNlIdx_some_spec (l : List Char) (m : Nat) (h : lastNlIdx l = some m) :
    m < l.length ∧ l.drop m ≠ [] ∧ (l.drop m).head? = some '\n' ∧ '\n' ∉ l.drop (m + 1) := by
  induction l generalizing m with
  | nil => exact Option.noConfusion h
  | cons c rest ih =>
    rw [lastNlIdx] at h
    rcases hr : lastNlIdx rest with _ | i
    · rw [hr] at h
      by_cases hc : c = '\n'
      · simp only [hc, if_pos rfl] at h
        obtain rfl : m = 0 := (Option.some_inj.1 h).symm
        refine ⟨by simp, by simp, by simp [hc], ?_⟩
        simpa using (lastNlIdx_eq_none_iff rest).1 hr
      · simp [hc] at h
    · rw [hr] at h
      obtain rfl : m = i + 1 := (Option.some_inj.1 h).symm
      obtain ⟨h1, h2, h3, h4⟩ := ih i hr
      exact ⟨by simpa using Nat.succ_lt_succ h1, by simpa using h2, by simpa using h3,
        by simpa using h4⟩

theorem takeWhile_append_all {p : Char → Bool} {xs : List Char} (ys : List Char)
    (h : ∀ c ∈ xs, p c) : (xs ++ ys).takeWhile p = xs ++ ys.takeWhile p := by
  induction xs with
  | nil => simp
  | cons a t ih =>
    have ha : p a := h a (by simp)
    simp only [List.cons_append, List.takeWhile_cons, ha, if_pos]
    rw [ih fun c hc => h c (by simp [hc])]

theorem takeWhile_dropWhile_nil (p : Char → Bool) (l : List Char) :
    (l.dropWhile p).takeWhile p = [] := by
  induction l with
  | nil => simp
  | cons a t ih =>
    by_cases ha : p a
    · simpa [List.dropWhile_cons, ha] using ih
    · simp [List.dropWhile_cons, ha, List.takeWhile_cons, ha]

theorem takeWhile_take (p : Char → Bool) (l : List Char) (n : Nat) :
    (l.take n).takeWhile p = (l.takeWhile p).take n := by
  induction l generalizing n with
  | nil => simp
  | cons a t ih =>
    match n with
    | 0 => simp
    | n + 1 =>
      by_cases ha : p a
      · simp [List.take_cons, List.takeWhile_cons, ha, ih]
      · simp [List.take_cons, List.takeWhile_cons, ha]

theorem drop_after_last_nl (rest : List Char) (m : Nat)
    (h : lastNlIdx (rest.takeWhile pyWs) = some m) :
    (rest.drop (m + 1)).takeWhile pyWs = (rest.takeWhile pyWs).drop (m + 1) ∧
      '\n' ∉ ((rest.drop (m + 1)).takeWhile pyWs) := by
  obtain ⟨hm, _, _, h4⟩ := lastNlIdx_some_spec _ _ h
  have hdecomp : rest = rest.takeWhile pyWs ++ rest.dropWhile pyWs :=
    (List.takeWhile_append_dropWhile pyWs rest).symm
  have hdrop : rest.drop (m + 1) =
      (rest.takeWhile pyWs).drop (m + 1) ++ rest.dropWhile pyWs := by
    conv_lhs => rw [hdecomp]
    rw [List.drop_append_eq_append_drop]
    have : m + 1 - (rest.takeWhile pyWs).length = 0 := by omega
    rw [this, List.drop_zero]
  have hall : ∀ c ∈ (rest.takeWhile pyWs).drop (m + 1), pyWs c := fun c hc =>
    List.mem_takeWhile_imp (List.mem_of_mem_drop hc)
  have htw : (rest.drop (m + 1)).takeWhile pyWs = (rest.takeWhile pyWs).drop (m + 1) := by
    rw [hdrop, takeWhile_append_all _ hall, takeWhile_dropWhile_nil, List.append_nil]
  exact ⟨htw, htw ▸ h4⟩

theorem mem_subBlank (l : List Char) (c : Char) (h : c ∈ subBlank l) :
    c ∈ l ∨ c = '\n' := by
  induction l using subBlank.induct with
  | case1 => rw [subBlank_nil] at h; simp at h
  | case2 rest m hm ih =>
    rw [subBlank_cons_nl_some rest m hm] at h
    rcases List.mem_cons.1 h with h | h
    · exact Or.inr h
    · rcases List.mem_cons.1 h with h | h
      · exact Or.inr h
      · rcases ih h with h' | h'
        · exact Or.inl (List.mem_cons_of_mem _ (List.mem_of_mem_drop h'))
        · exact Or.inr h'
  | case3 rest hm ih =>
    rw [subBlank_cons_nl_none rest hm] at h
    rcases List.mem_cons.1 h with h | h
    · exact Or.inl (h ▸ List.mem_cons_self _ _)
    · rcases ih h with h' | h'
      · exact Or.inl (List.mem_cons_of_mem _ h')
      · exact Or.inr h'
  | case4 c' rest hc ih =>
    rw [subBlank_cons_not rest hc] at h
    rcases List.mem_cons.1 h with h | h
    · exact Or.inl (h ▸ List.mem_cons_self _ _)
    · rcases ih h with h' | h'
      · exact Or.inl (List.mem_cons_of_mem _ h')
      · exact Or.inr h'

theorem pyWs_nl : pyWs '\n' = true := by decide

theorem takeWhile_subBlank (l : List Char) (h : '\n' ∉ l.takeWhile pyWs) :
    (subBlank l).takeWhile pyWs = l.takeWhile pyWs := by
  induction l using subBlank.induct with
  | case1 => rw [subBlank_nil]
  | case2 rest m hm ih =>
    exact absurd (by simp [List.takeWhile_cons, pyWs_nl]) h
  | case3 rest hm ih =>
    exact absurd (by simp [List.takeWhile_cons, pyWs_nl]) h
  | case4 c rest hc ih =>
    rw [subBlank_cons_not rest hc]
    by_cases hw : pyWs c
    · simp only [List.takeWhile_cons, hw, if_pos] at h ⊢
      have h' : '\n' ∉ rest.takeWhile pyWs := fun hmem => h (by simp [hmem])
      rw [ih h']
    · simp [List.takeWhile_cons, hw]

theorem subBlank_idem (l : List Char) : subBlank (subBlank l) = subBlank l := by
  induction l using subBlank.induct with
  | case1 => rw [subBlank_nil, subBlank_nil]
  | case2 rest m hm ih =>
    rw [subBlank_cons_nl_some rest m hm]
    obtain ⟨htw, hnl⟩ := drop_after_last_nl rest m hm
    have htw2 : (subBlank (rest.drop (m + 1))).takeWhile pyWs =
        (rest.drop (m + 1)).takeWhile pyWs := takeWhile_subBlank _ hnl
    have hrun : ('\n' :: subBlank (rest.drop (m + 1))).takeWhile pyWs =
        '\n' :: (rest.drop (m + 1)).takeWhile pyWs := by
      simp [List.takeWhile_cons, pyWs_nl, htw2]
    have hlast : lastNlIdx (('\n' :: subBlank (rest.drop (m + 1))).takeWhile pyWs) = some 0 := by
      rw [hrun, lastNlIdx]
      rw [(lastNlIdx_eq_none_iff _).2 hnl]
      simp
    rw [subBlank_cons_nl_some _ 0 hlast]
    simp only [List.drop_succ_cons, List.drop_zero]
    rw [ih]
  | case3 rest hm ih =>
    rw [subBlank_cons_nl_none rest hm]
    have hnl : '\n' ∉ rest.takeWhile pyWs := (lastNlIdx_eq_none_iff _).1 hm
    have hlast : lastNlIdx ((subBlank rest).takeWhile pyWs) = none := by
      rw [takeWhile_subBlank _ hnl]
      exact hm
    rw [subBlank_cons_nl_none _ hlast, ih]
  | case4 c rest hc ih =>
    rw [subBlank_cons_not rest hc, subBlank_cons_not _ hc, ih]

theorem fix_structure (rest : List Char) (m : Nat)
    (hm : lastNlIdx (rest.takeWhile pyWs) = some m)
    (hfix : subBlank ('\n' :: rest) = '\n' :: rest) :
    m = 0 ∧ ∃ X, rest = '\n' :: X ∧ subBlank X = X ∧ '\n' ∉ X.takeWhile pyWs := by
  rw [subBlank_cons_nl_some rest m hm] at hfix
  have hrest : rest = '\n' :: subBlank (rest.drop (m + 1)) := by
    simpa using hfix.symm
  have hnl : '\n' ∉ (rest.drop (m + 1)).takeWhile pyWs := (drop_after_last_nl rest m hm).2
  have htw : (subBlank (rest.drop (m + 1))).takeWhile pyWs =
      (rest.drop (m + 1)).takeWhile pyWs := takeWhile_subBlank _ hnl
  have hm0 : m = 0 := by
    have hrun : rest.takeWhile pyWs =
        '\n' :: (rest.drop (m + 1)).takeWhile pyWs := by
      conv_lhs => rw [hrest]
      simp [List.takeWhile_cons, pyWs_nl, htw]
    rw [hrun, lastNlIdx, (lastNlIdx_eq_none_iff _).2 hnl] at hm
    simpa using hm.symm
  subst hm0
  refine ⟨rfl, subBlank (rest.drop 1), by simpa using hrest, subBlank_idem _, ?_⟩
  rw [takeWhile_subBlank _ (by simpa using hnl)]
  simpa using hnl

theorem subBlank_take (l : List Char) :
    ∀ n : Nat, subBlank l = l → subBlank (l.take n) = l.take n := by
  induction l using subBlank.induct with
  | case1 => intro n _; rw [List.take_nil, subBlank_nil]
  | case2 rest m hm ih =>
    intro n h
    obtain ⟨hm0, X, hX, hfixX, hnlX⟩ := fix_structure rest m hm h
    subst hm0
    match n with
    | 0 => rw [List.take_zero, subBlank_nil]
    | 1 =>
      rw [hX]
      show subBlank ['\n'] = ['\n']
      rw [subBlank_cons_nl_none _ (by simp [lastNlIdx]), subBlank_nil]
    | n + 2 =>
      rw [hX]
      show subBlank ('\n' :: '\n' :: X.take n) = '\n' :: '\n' :: X.take n
      have htkn : '\n' ∉ (X.take n).takeWhile pyWs := by
        rw [takeWhile_take]
        exact fun hmem => hnlX (List.mem_of_mem_take hmem)
      have hlast : lastNlIdx (('\n' :: X.take n).takeWhile pyWs) = some 0 := by
        simp only [List.takeWhile_cons, pyWs_nl, if_pos]
        rw [lastNlIdx, (lastNlIdx_eq_none_iff _).2 htkn]
        simp
      rw [subBlank_cons_nl_some _ 0 hlast]
      simp only [List.drop_succ_cons, List.drop_zero]
      have hXtake : subBlank (X.take n) = X.take n := by
        have := ih n
        rw [hX] at this
        simpa using this hfixX
      rw [hXtake]
  | case3 rest hm ih =>
    intro n h
    rw [subBlank_cons_nl_none rest hm] at h
    have hrest : subBlank rest = rest := by simpa using h
    match n with
    | 0 => rw [List.take_zero, subBlank_nil]
    | n + 1 =>
      show subBlank ('\n' :: rest.take n) = '\n' :: rest.take n
      have hnl : '\n' ∉ rest.takeWhile pyWs := (lastNlIdx_eq_none_iff _).1 hm
      have htkn : lastNlIdx ((rest.take n).takeWhile pyWs) = none := by
        rw [takeWhile_take]
        exact (lastNlIdx_eq_none_iff _).2 fun hmem => hnl (List.mem_of_mem_take hmem)
      rw [subBlank_cons_nl_none _ htkn, ih n hrest]
  | case4 c rest hc ih =>
    intro n h
    rw [subBlank_cons_not rest hc] at h
    have hrest : subBlank rest = rest := by simpa using h
    match n with
    | 0 => rw [List.take_zero, subBlank_nil]
    | n + 1 =>
      show subBlank (c :: rest.take n) = c :: rest.take n
      rw [subBlank_cons_not _ hc, ih n hrest]

theorem subBlank_dropWhile (l : List Char) :
    subBlank l = l → subBlank (l.dropWhile pyWs) = l.dropWhile pyWs := by
  induction l using subBlank.induct with
  | case1 => intro _; rw [List.dropWhile_nil, subBlank_nil]
  | case2 rest m hm ih =>
    intro h
    obtain ⟨hm0, X, hX, hfixX, _⟩ := fix_structure rest m hm h
    subst hm0
    have hXdrop : subBlank (X.dropWhile pyWs) = X.dropWhile pyWs := by
      have := ih
      rw [hX] at this
      simpa using this hfixX
    calc subBlank (('\n' :: rest).dropWhile pyWs)
        = subBlank (X.dropWhile pyWs) := by rw [hX]; simp [List.dropWhile_cons, pyWs_nl]
      _ = X.dropWhile pyWs := hXdrop
      _ = ('\n' :: rest).dropWhile pyWs := by rw [hX]; simp [List.dropWhile_cons, pyWs_nl]
  | case3 rest hm ih =>
    intro h
    rw [subBlank_cons_nl_none rest hm] at h
    have hrest : subBlank rest = rest := by simpa using h
    have : ('\n' :: rest).dropWhile pyWs = rest.dropWhile pyWs := by
      simp [List.dropWhile_cons, pyWs_nl]
    rw [this, ih hrest]
  | case4 c rest hc ih =>
    intro h
    rw [subBlank_cons_not rest hc] at h
    have hrest : subBlank rest = rest := by simpa using h
    by_cases hw : pyWs c
    · rw [List.dropWhile_cons, if_pos hw, ih hrest]
    · rw [List.dropWhile_cons, if_neg hw, subBlank_cons_not _ hc, hrest]

theorem noBadBlank_of_fix (l : List Char) : subBlank l = l → noBadBlank l = true := by
  induction l using subBlank.induct with
  | case1 => intro _; rfl
  | case2 rest m hm ih =>
    intro h
    obtain ⟨hm0, X, hX, hfixX, hnlX⟩ := fix_structure rest m hm h
    subst hm0
    have hrestfix : subBlank rest = rest := by
      rw [hX, subBlank_cons_nl_none _ ((lastNlIdx_eq_none_iff _).2 hnlX), hfixX]
    have hXgood : noBadBlank X = true := by
      have := ih
      rw [hX] at this
      simpa using this hfixX
    rw [noBadBlank, hm, Bool.and_eq_true]
    refine ⟨rfl, ?_⟩
    rw [hX, noBadBlank, (lastNlIdx_eq_none_iff _).2 hnlX, Bool.and_eq_true]
    exact ⟨by simp, hXgood⟩
  | case3 rest hm ih =>
    intro h
    rw [subBlank_cons_nl_none rest hm] at h
    have hrest : subBlank rest = rest := by simpa using h
    rw [noBadBlank, hm, Bool.and_eq_true]
    exact ⟨by simp, ih hrest⟩
  | case4 c rest hc ih =>
    intro h
    rw [subBlank_cons_not rest hc] at h
    have hrest : subBlank rest = rest := by simpa using h
    rw [noBadBlank, Bool.and_eq_true]
    exact ⟨by simp [hc], ih hrest⟩

theorem head?_dropWhile {p : Char → Bool} {l : List Char} {c : Char}
    (h : (l.dropWhile p).head? = some c) : p c = false := by
  induction l with
  | nil => simp at h
  | cons a t ih =>
    rw [List.dropWhile_cons] at h
    by_cases ha : p a
    · exact ih (by simpa [ha] using h)
    · rw [if_neg ha] at h
      obtain rfl : a = c := by simpa using h
      simpa using ha

theorem head?_take {l : List Char} {k : Nat} {c : Char}
    (h : (l.take k).head? = some c) : l.head? = some c := by
  cases l with
  | nil => simp at h
  | cons a t =>
    cases k with
    | zero => simp at h
    | succ k => simpa using h

theorem stripList_eq_take (l : List Char) :
    ∃ k, stripList l = (l.dropWhile pyWs).take k := by
  refine ⟨(((l.dropWhile pyWs).reverse.dropWhile pyWs).reverse).length, ?_⟩
  have hdecomp : l.dropWhile pyWs =
      ((l.dropWhile pyWs).reverse.dropWhile pyWs).reverse ++
        ((l.dropWhile pyWs).reverse.takeWhile pyWs).reverse := by
    conv_lhs => rw [← List.reverse_reverse (l.dropWhile pyWs),
      ← List.takeWhile_append_dropWhile pyWs (l.dropWhile pyWs).reverse]
    rw [List.reverse_append]
  calc stripList l
      = (((l.dropWhile pyWs).reverse.dropWhile pyWs).reverse ++
          ((l.dropWhile pyWs).reverse.takeWhile pyWs).reverse).take
            (((l.dropWhile pyWs).reverse.dropWhile pyWs).reverse).length :=
        (List.take_left _ _).symm
    _ = (l.dropWhile pyWs).take
          (((l.dropWhile pyWs).reverse.dropWhile pyWs).reverse).length := by
        rw [← hdecomp]

theorem subBlank_stripList (l : List Char) (h : subBlank l = l) :
    subBlank (stripList l) = stripList l := by
  obtain ⟨k, hk⟩ := stripList_eq_take l
  rw [hk]
  exact subBlank_take _ k (subBlank_dropWhile l h)

theorem mem_stripList {l : List Char} {c : Char} (h : c ∈ stripList l) : c ∈ l := by
  obtain ⟨k, hk⟩ := stripList_eq_take l
  rw [hk] at h
  exact (List.dropWhile_sublist pyWs).subset (List.mem_of_mem_take h)

theorem stripList_head {l : List Char} {c : Char}
    (h : (stripList l).head? = some c) : pyWs c = false := by
  obtain ⟨k, hk⟩ := stripList_eq_take l
  rw [hk] at h
  exact head?_dropWhile (head?_take h)

theorem stripList_getLast {l : List Char} {c : Char}
    (h : (stripList l).getLast? = some c) : pyWs c = false := by
  rw [← List.head?_reverse] at h
  unfold stripList at h
  rw [List.reverse_reverse] at h
  exact head?_dropWhile h

theorem stripList_idem (l : List Char) : stripList (stripList l) = stripList l := by
  have claim1 : (stripList l).dropWhile pyWs = stripList l := by
    cases hB : stripList l with
    | nil => simp
    | cons b B' =>
      have hb : pyWs b = false := stripList_head (by rw [hB]; rfl)
      rw [List.dropWhile_cons, if_neg (by simp [hb])]
  have claim2 : (stripList l).reverse.dropWhile pyWs = (stripList l).reverse := by
    have hrev : (stripList l).reverse = (l.dropWhile pyWs).reverse.dropWhile pyWs := by
      unfold stripList
      rw [List.reverse_reverse]
    rw [hrev, List.dropWhile_idempotent]
  show (((stripList l).dropWhile pyWs).reverse.dropWhile pyWs).reverse = stripList l
  rw [claim1, claim2, List.reverse_reverse]

/-- Claim C5 (confirmed): the normalizer is a total, deterministic
function and is idempotent — re-normalizing its own output changes
nothing. The only assumption is that the external emoji set does not
contain the newline character (true of the `emoji` library). -/
theorem remove_special_characters_idem (isEmoji : Char → Bool) (s : List Char)
    (hN : isEmoji '\n' = false) :
    remove_special_characters isEmoji (remove_special_characters isEmoji s) = remove_special_characters isEmoji s := by
  have htmem : ∀ c ∈ remove_special_characters isEmoji s,
      c ∈ (s.filter allowedChar).filter (fun c => !isEmoji c) ∨ c = '\n' :=
    fun c hc => mem_subBlank _ c (mem_stripList hc)
  have hfilter1 : (remove_special_characters isEmoji s).filter allowedChar = remove_special_characters isEmoji s := by
    rw [List.filter_eq_self]
    intro c hc
    rcases htmem c hc with hcu | rfl
    · exact (List.mem_filter.1 (List.mem_filter.1 hcu).1).2
    · decide
  have hfilter2 : (remove_special_characters isEmoji s).filter (fun c => !isEmoji c) = remove_special_characters isEmoji s := by
    rw [List.filter_eq_self]
    intro c hc
    rcases htmem c hc with hcu | rfl
    · exact (List.mem_filter.1 hcu).2
    · simp [hN]
  have hfix : subBlank (remove_special_characters isEmoji s) = remove_special_characters isEmoji s :=
    subBlank_stripList _ (subBlank_idem _)
  show stripList (subBlank (((remove_special_characters isEmoji s).filter allowedChar).filter
    fun c => !isEmoji c)) = remove_special_characters isEmoji s
  rw [hfilter1, hfilter2, hfix]
  exact stripList_idem _

/-- Claim C9 (amended): the normalizer's whitespace step collapses every
run of two or more blank lines to exactly one blank line (no newline in
the output is followed, within its whitespace run, by a further newline
beyond an immediately adjacent one) and strips leading and trailing
whitespace of the whole output. It does **not** collapse whitespace runs
within a line to a single space and does not trim individual lines. -/
theorem normalizer_blank_line_spec (isEmoji : Char → Bool) (s : List Char) :
    noBadBlank (remove_special_characters isEmoji s) = true ∧
    (∀ c, (remove_special_characters isEmoji s).head? = some c → pyWs c = false) ∧
    (∀ c, (remove_special_characters isEmoji s).getLast? = some c → pyWs c = false) :=
  ⟨noBadBlank_of_fix _ (subBlank_stripList _ (subBlank_idem _)),
   fun _ h => stripList_head h, fun _ h => stripList_getLast h⟩

/-! ## Scan characterisation, orchestrator, and metrics lemmas -/



theorem lastContrib_nil (ents : List Ent) : lastContrib [] ents = [] := rfl

theorem lastContrib_concat (xs : List OrgCand) (o : OrgCand) (ents : List Ent) :
    lastContrib (xs ++ [o]) ents =
      if o.stop ≠ none ∨ closedByCode o.start ents = true
      then [(o.name, o.start)] else [] := by
  rw [lastContrib, List.getLast?_concat]

theorem list_concat_cases (l : List OrgCand) : l = [] ∨ ∃ xs o, l = xs ++ [o] := by
  rcases l.eq_nil_or_concat with h | ⟨L, b, h⟩
  · exact Or.inl h
  · exact Or.inr ⟨L, b, by simpa [List.concat_eq_append] using h⟩

theorem scanEnts_proj (cf : List Char → Bool) :
    ∀ (ents : List Ent) (orgs : List OrgCand) (places : List PlaceCand),
    (∀ e ∈ ents, e.label = .orgName → cf e.text = false) →
    (∀ o ∈ orgs.dropLast, o.stop ≠ none) →
    ∃ res pl, scanEnts cf ents orgs places = .ok (res, pl) ∧
      res.map (fun o => (o.name, o.start)) =
        orgs.dropLast.map (fun o => (o.name, o.start)) ++
          lastContrib orgs ents ++ keptOrgsCode ents := by
  intro ents
  induction ents with
  | nil =>
    intro orgs places _ hinv
    refine ⟨popOpen orgs, places, rfl, ?_⟩
    rw [keptOrgsCode, List.append_nil]
    rcases list_concat_cases orgs with rfl | ⟨xs, o, rfl⟩
    · simp [popOpen, lastContrib]
    · rw [lastContrib_concat, List.dropLast_concat]
      by_cases hstop : o.stop = none
      · have hpop : popOpen (xs ++ [o]) = xs := by
          simp [popOpen, List.getLast?_concat, hstop, List.dropLast_concat]
        rw [hpop, if_neg, List.append_nil]
        simp [hstop, closedByCode]
      · have hpop : popOpen (xs ++ [o]) = xs ++ [o] := by
          simp [popOpen, List.getLast?_concat, hstop]
        rw [hpop, if_pos (Or.inl hstop)]
        simp
  | cons e rest ih =>
    intro orgs places hF hinv
    have hFr : ∀ x ∈ rest, x.label = .orgName → cf x.text = false :=
      fun x hx => hF x (List.mem_cons_of_mem _ hx)
    rw [scanEnts]
    by_cases hpl : e.label = .placeName
    · rw [if_pos hpl]
      have hknotorg : (e.label = EntLabel.orgName) = False := by
        simp [hpl]
      have hkept : keptOrgsCode (e :: rest) = keptOrgsCode rest := by
        rw [keptOrgsCode]
        simp [hknotorg]
      rcases list_concat_cases orgs with rfl | ⟨xs, o, rfl⟩
      · simp only [List.getLast?_nil]
        obtain ⟨res, pl, heq, hproj⟩ :=
          ih [] (places ++ [⟨e.text, e.start - 90, e.start⟩]) hFr (by simp)
        refine ⟨res, pl, by simpa using heq, ?_⟩
        rw [hproj, hkept]
        simp [lastContrib]
      · simp only [List.getLast?_concat]
        by_cases hdist : (e.start : Int) - (o.start : Int) < 90
        · rw [if_pos hdist]
          set o' : OrgCand :=
            { o with stop := some (e.start + e.text.length), place := some e.text } with ho'
          have hinv' : ∀ x ∈ ((xs ++ [o]).dropLast ++ [o']).dropLast, x.stop ≠ none := by
            rw [List.dropLast_concat, List.dropLast_concat]
            exact fun x hx => hinv x (by rw [List.dropLast_concat]; exact hx)
          obtain ⟨res, pl, heq, hproj⟩ := ih ((xs ++ [o]).dropLast ++ [o'])
            (places ++ [⟨e.text, e.start - 90, e.start⟩]) hFr hinv'
          refine ⟨res, pl, by simpa using heq, ?_⟩
          rw [hproj, hkept, List.dropLast_concat, List.dropLast_concat,
            lastContrib_concat, lastContrib_concat]
          have ho'stop : o'.stop ≠ none := by simp [ho']
          rw [if_pos (Or.inl ho'stop)]
          have hclosed : closedByCode o.start (e :: rest) = true := by
            rw [closedByCode]
            simp only [hpl, hdist]
            simp
          rw [if_pos (Or.inr hclosed)]
        · rw [if_neg hdist]
          obtain ⟨res, pl, heq, hproj⟩ :=
            ih (xs ++ [o]) (places ++ [⟨e.text, e.start - 90, e.start⟩]) hFr hinv
          refine ⟨res, pl, by simpa using heq, ?_⟩
          rw [hproj, hkept, lastContrib_concat, lastContrib_concat]
          have hstep : closedByCode o.start (e :: rest) = closedByCode o.start rest := by
            rw [closedByCode]
            have : (e.label = EntLabel.orgName) = False := by simp [hpl]
            simp only [this, if_false]
            have hfalse : (e.label = EntLabel.placeName &&
                decide ((e.start : Int) - (o.start : Int) < 90)) = false := by
              simp [hdist]
            rw [hfalse]
            simp
          rw [hstep]
    · rw [if_neg hpl]
      by_cases horg : e.label = .orgName
      · rw [if_pos horg]
        have hcf : cf e.text = false := hF e (List.mem_cons_self _ _) horg
        rw [hcf]
        simp only [Bool.false_eq_true, if_false]
        have hinvnew : ∀ x ∈ (popOpen orgs ++ [(⟨e.text, e.start, none, none⟩ : OrgCand)]).dropLast,
            x.stop ≠ none := by
          rw [List.dropLast_concat]
          intro x hx
          rcases list_concat_cases orgs with rfl | ⟨xs, o, rfl⟩
          · simp [popOpen] at hx
          · by_cases hstop : o.stop = none
            · have : popOpen (xs ++ [o]) = xs := by
                simp [popOpen, List.getLast?_concat, hstop, List.dropLast_concat]
              rw [this] at hx
              exact hinv x (by rw [List.dropLast_concat]; exact hx)
            · have : popOpen (xs ++ [o]) = xs ++ [o] := by
                simp [popOpen, List.getLast?_concat, hstop]
              rw [this] at hx
              rcases List.mem_append.1 hx with hx | hx
              · exact hinv x (by rw [List.dropLast_concat]; exact hx)
              · simpa using (List.mem_singleton.1 hx) ▸ hstop
        obtain ⟨res, pl, heq, hproj⟩ :=
          ih (popOpen orgs ++ [(⟨e.text, e.start, none, none⟩ : OrgCand)]) places hFr hinvnew
        refine ⟨res, pl, heq, ?_⟩
        rw [hproj, List.dropLast_concat, lastContrib_concat]
        have hkept : keptOrgsCode (e :: rest) =
            (if closedByCode e.start rest = true then [(e.text, e.start)] else []) ++
              keptOrgsCode rest := by
          rw [keptOrgsCode]
          simp [horg]
        rw [hkept]
        have hmid : (if (⟨e.text, e.start, none, none⟩ : OrgCand).stop ≠ none ∨
            closedByCode (⟨e.text, e.start, none, none⟩ : OrgCand).start rest = true
            then [((⟨e.text, e.start, none, none⟩ : OrgCand).name,
              (⟨e.text, e.start, none, none⟩ : OrgCand).start)] else []) =
            (if closedByCode e.start rest = true then [(e.text, e.start)] else []) := by
          by_cases hcl : closedByCode e.start rest = true
          · rw [if_pos (Or.inr hcl), if_pos hcl]
          · rw [if_neg, if_neg hcl]
            rintro (hbad | hbad)
            · exact hbad rfl
            · exact hcl hbad
        rw [hmid]
        have hpopmap : (popOpen orgs).map (fun o => (o.name, o.start)) =
            orgs.dropLast.map (fun o => (o.name, o.start)) ++ lastContrib orgs (e :: rest) := by
          rcases list_concat_cases orgs with rfl | ⟨xs, o, rfl⟩
          · simp [popOpen, lastContrib]
          · rw [List.dropLast_concat, lastContrib_concat]
            by_cases hstop : o.stop = none
            · have hpop : popOpen (xs ++ [o]) = xs := by
                simp [popOpen, List.getLast?_concat, hstop, List.dropLast_concat]
              have hcl : closedByCode o.start (e :: rest) = false := by
                rw [closedByCode]
                simp [horg]
              rw [hpop, hcl]
              simp [hstop]
            · have hpop : popOpen (xs ++ [o]) = xs ++ [o] := by
                simp [popOpen, List.getLast?_concat, hstop]
              rw [hpop, if_pos (Or.inl hstop)]
              simp
        rw [hpopmap, List.append_assoc]
      · rw [if_neg horg]
        obtain ⟨res, pl, heq, hproj⟩ := ih orgs places hFr hinv
        refine ⟨res, pl, heq, ?_⟩
        rw [hproj]
        have hkept : keptOrgsCode (e :: rest) = keptOrgsCode rest := by
          rw [keptOrgsCode]
          simp [horg]
        rw [hkept]
        rcases list_concat_cases orgs with rfl | ⟨xs, o, rfl⟩
        · rfl
        · rw [lastContrib_concat, lastContrib_concat]
          have hstep : closedByCode o.start (e :: rest) = closedByCode o.start rest := by
            rw [closedByCode]
            have h1 : (e.label = EntLabel.orgName) = False := by simp [horg]
            have h2 : (e.label = EntLabel.placeName &&
                decide ((e.start : Int) - (o.start : Int) < 90)) = false := by
              simp [hpl]
            simp only [h1, if_false, h2]
            simp
          rw [hstep]



/-- Claim C4 (amended): in the candidate-building pass an ORG entity is
kept if and only if some PLACE entity that follows it, with no ORG
entity in between, starts strictly within 90 characters of the ORG's
**start** character (`place_index - org_ind < 90` in the source, both
`start_char`s); trailing ORG candidates never closed by such a PLACE —
including the final open one at end of scan — are discarded. The claim
measured the window from the ORG span's end, which the code does not. -/
theorem scan_keeps_iff (cf : List Char → Bool) (ents : List Ent)
    (hF : ∀ e ∈ ents, e.label = .orgName → cf e.text = false) :
    (scanOrgs cf ents).map (fun o => (o.name, o.start)) = keptOrgsCode ents := by
  obtain ⟨res, pl, heq, hproj⟩ := scanEnts_proj cf ents [] [] hF (by simp)
  have hres : scanOrgs cf ents = res := by
    rw [scanOrgs, heq]
  rw [hres, hproj]
  simp [lastContrib_nil]

/-- Claim C3 (confirmed): when the entity sequence yields a surviving
ORG+PLACE pairing whose ORG-start-to-PLACE-end slice matches the
institution-type regex — even in the presence of a PLACE whose backward
window carries a statute-style (`STATUT`-prefixed) match — the extractor
returns an ORG-anchored slice: the place-anchored passes, including the
statute fallback, are never consulted. (The claim's stipulation that the
place window matches *only* the statute variant is unsatisfiable in the
code: the statute regex embeds the plain variant as its capture group,
so any window matching the former also matches the latter; the theorem
therefore assumes just that a statute-style match is present.) -/
theorem extract_org_precedence (cf : List Char → Bool) (ts : List Char) (ents : List Ent)
    (hF : ∀ e ∈ ents, e.label = .orgName → cf e.text = false)
    (hStat : ∃ p ∈ scanPlaces cf ents,
      (match1Group (lowerL (slice ts p.windowStart (p.start + p.name.length)))
        (lowerL p.name)).isSome = true)
    (hM : ∃ o ∈ scanOrgs cf ents, orgMatchesB ts o = true) :
    ∃ o ∈ scanOrgs cf ents, orgMatchesB ts o = true ∧
      extractInstitution cf ts ents = some (orgSpan ts o) := by
  obtain ⟨res, pl, heq, _⟩ := scanEnts_proj cf ents [] [] hF (by simp)
  have hres : scanOrgs cf ents = res := by
    rw [scanOrgs, heq]
  rw [hres] at hM ⊢
  have hfind : (res.find? (orgMatchesB ts)).isSome := by
    rw [List.find?_isSome]
    obtain ⟨o, hmem, hmo⟩ := hM
    exact ⟨o, hmem, hmo⟩
  obtain ⟨o₀, ho₀⟩ := Option.isSome_iff_exists.1 hfind
  refine ⟨o₀, List.mem_of_find?_eq_some ho₀, List.find?_some ho₀, ?_⟩
  rw [extractInstitution, heq]
  dsimp only
  rw [ho₀]



theorem scraperStep_fails (cfg : ScrapeConfig) (st : ScrapeState) (it : UrlItem)
    (h : it.fails = true) : scraperStep cfg st it = st := by
  unfold scraperStep
  by_cases hv : it.url ∈ st.visited
  · rw [if_pos hv]
  · rw [if_neg hv, if_pos h]

theorem runScraper_skip_failed (cfg : ScrapeConfig) (st : ScrapeState)
    (pre post : List UrlItem) (bad : UrlItem) (h : bad.fails = true) :
    runScraper cfg st (pre ++ bad :: post) = runScraper cfg st (pre ++ post) := by
  unfold runScraper
  rw [List.foldl_append, List.foldl_append, List.foldl_cons, scraperStep_fails _ _ _ h]

theorem scraperStep_persist_visited (cfg : ScrapeConfig) (st : ScrapeState) (it : UrlItem)
    (hp : it.persistFails = true) (hf : it.fails = false) (hdb : cfg.allowDb = true)
    (hlen : cfg.minTextLen < it.content.length) (hv : it.url ∉ st.visited) :
    (scraperStep cfg st it).visited = st.visited := by
  unfold scraperStep
  rw [if_neg hv, if_neg (by simp [hf]), if_pos hlen, if_pos (by simp [hdb, hp])]

theorem runPdf_fails (cfg : ScrapeConfig) (st : ScrapeState) (bad : PdfItem)
    (rest : List PdfItem) (hp : bad.isPdf = true) (hv : bad.name ∉ st.visited)
    (hf : bad.fails = true) : runPdf cfg st (bad :: rest) = st := by
  rw [runPdf, if_neg (by simp [hp]), if_neg hv, if_pos hf]

theorem scraperStep_db_iff (cfg : ScrapeConfig) (st : ScrapeState) (it : UrlItem)
    (hdb : cfg.allowDb = true) (hf : it.fails = false) (hv : it.url ∉ st.visited) :
    ((scraperStep cfg st it).db = st.db ++ [(it.url, it.content)] ↔
      cfg.minTextLen < it.content.length) := by
  unfold scraperStep
  rw [if_neg hv, if_neg (by simp [hf])]
  by_cases hlen : cfg.minTextLen < it.content.length
  · rw [if_pos hlen, hdb]
    constructor
    · intro _; exact hlen
    · intro _
      by_cases hper : (true && it.persistFails) = true
      · rw [if_pos hper]
        simp
      · rw [if_neg hper]
        simp
  · rw [if_neg hlen]
    constructor
    · intro h
      exfalso
      have := congrArg List.length h
      simp at this
    · intro h; exact absurd h hlen

theorem scraperStep_short (cfg : ScrapeConfig) (st : ScrapeState) (it : UrlItem)
    (hf : it.fails = false) (hv : it.url ∉ st.visited)
    (hlen : ¬ cfg.minTextLen < it.content.length) :
    (scraperStep cfg st it).db = st.db ∧
      (scraperStep cfg st it).visited = st.visited ++ [it.url] := by
  unfold scraperStep
  rw [if_neg hv, if_neg (by simp [hf]), if_neg hlen]
  exact ⟨rfl, rfl⟩

theorem runPdf_hands_record (cfg : ScrapeConfig) (st : ScrapeState) (it : PdfItem)
    (rest : List PdfItem) (hdb : cfg.allowDb = true) (hp : it.isPdf = true)
    (hf : it.fails = false) (hpf : it.persistFails = false) (hv : it.name ∉ st.visited) :
    runPdf cfg st (it :: rest) =
      runPdf cfg ⟨st.visited ++ [it.name], st.db ++ [(it.name, it.content)], st.count + 1⟩
        rest := by
  rw [runPdf, if_neg (by simp [hp]), if_neg hv, if_neg (by simp [hf]),
    if_neg (by simp [hpf]), hdb]
  simp



theorem pyRound4_zero : pyRound4 0 = 0 := by
  norm_num [pyRound4]

/-- Claim C7 (amended): when every token is punctuation or whitespace
the word count is 0 and the metrics computation returns 0 for average
word length, lexical density and the gunning-fog index with no division
error; the average sentence length is 0 whenever the sentence count is 0
— but it is guarded by the *sentence* count, not the word count, so a
punctuation-only text segmented into sentences yields a nonzero value. -/
theorem metrics_zero_words (text : List Char) (doc : List SpacyToken)
    (sentLens : List Nat) (gf : ℚ) (h : ∀ t ∈ doc, t.isPunct || t.isSpace) :
    (get_metrics text doc sentLens gf).words = 0 ∧
    (get_metrics text doc sentLens gf).avgWordLength = 0 ∧
    (get_metrics text doc sentLens gf).lexicalDensity = 0 ∧
    (get_metrics text doc sentLens gf).gunningFog = 0 ∧
    (sentLens = [] → (get_metrics text doc sentLens gf).avgSentenceLength = 0) := by
  have hfilter : doc.filter (fun t => !t.isPunct && !t.isSpace) = [] := by
    rw [List.filter_eq_nil_iff]
    intro t ht
    have ht2 := h t ht
    rcases Bool.or_eq_true t.isPunct t.isSpace ▸ ht2 with h1 | h1 <;> simp [h1]
  refine ⟨?_, ?_, ?_, ?_, ?_⟩ <;>
    simp [get_metrics, hfilter, pyRound4_zero]
  intro hs
  simp [hs, pyRound4_zero]



/-- Claim C7 counterexample: a document consisting of one punctuation
token that spaCy segments into one sentence has zero recognized words,
yet `get_metrics` reports an average sentence length of 1, not 0 — the
guard is `if sentences else 0`, not `if words else 0`. -/
theorem metrics_punct_sentence_counterexample :
    (∀ t ∈ [(⟨".".data, ".", "PUNCT", true, false⟩ : SpacyToken)], t.isPunct || t.isSpace) ∧
    (get_metrics ".".data [⟨".".data, ".", "PUNCT", true, false⟩] [1] 5).words = 0 ∧
    (get_metrics ".".data [⟨".".data, ".", "PUNCT", true, false⟩] [1] 5).avgSentenceLength = 1 ∧
    (1 : ℚ) ≠ 0 := by
  refine ⟨by decide, by decide, ?_, by norm_num⟩
  norm_num [get_metrics, pyRound4]


/-! ## Claim theorems: batch loops, classifier, and concrete instances -/

/-- Claim C10 (confirmed): for every text and every chunk size `k ≥ 1`,
`batch_loader_for_LLM` yields, in order, the consecutive slices
`text[0:k], text[k:2k], …`; every chunk is at most `k` long, every chunk
except possibly the last is exactly `k` long, the concatenation of the
chunks is the original text, and the empty text yields no chunks. -/
theorem batch_loader_spec (text : List Char) (k : Nat) (hk : 1 ≤ k) :
    batch_loader_for_LLM [] k = [] ∧
    (batch_loader_for_LLM text k).flatten = text ∧
    (∀ c ∈ batch_loader_for_LLM text k, c.length ≤ k) ∧
    (∀ i (hi : i < (batch_loader_for_LLM text k).length),
      (batch_loader_for_LLM text k)[i] = (text.drop (i * k)).take k) ∧
    (∀ i (hi : i + 1 < (batch_loader_for_LLM text k).length),
      ((batch_loader_for_LLM text k).get ⟨i, Nat.lt_of_succ_lt hi⟩).length = k) :=
  ⟨batch_loader_nil k, batch_loader_join text k hk, batch_loader_le text k hk,
   fun i hi => batch_loader_get text k hk i hi,
   fun i hi => batch_loader_full text k hk i hi⟩

/-- Witness for C10 at `k = 3` over an 8-character text. -/
theorem batch_loader_spec_witness :
    1 ≤ 3 ∧ (batch_loader_for_LLM "abcdefgh".data 3).flatten = "abcdefgh".data :=
  ⟨by decide, (batch_loader_spec "abcdefgh".data 3 (by decide)).2.1⟩

/-- Claim C2: the claim is right and the code is wrong. The dict literal
in `classify_document` writes the key `'Statute'` twice, so the mapping
`'Statute' ↦ 'regulamin'` is silently dropped: a URL containing
`"regulamin"` (and no other keyword) does **not** classify heuristically
— the heuristic misses and the model-backed collaborator is invoked,
whose answer (here a fake returning `Article`) is returned. -/
theorem classify_regulamin_goes_to_llm :
    substrB "regulamin".data "https://put.poznan.pl/regulamin".data = true ∧
    classifyHeuristic "https://put.poznan.pl/regulamin".data = none ∧
    classify_document "https://put.poznan.pl/regulamin".data "tytul".data
        (fun _ _ => DocType.Article) =
      (DocType.Article, some ("https://put.poznan.pl/regulamin".data, "tytul".data)) :=
  ⟨by decide, by decide, by decide⟩

/-- Claim C8: the claim is right and the code is wrong. When no keyword
matches, `classify_document(url, title, api)` calls
`classify_document_with_LLM(url, title, api)` — the `text` argument of
the collaborator receives the **URL**, not the document body; the body
is not even a parameter of `classify_document`, although its docstring
promises classification "using the document content". -/
theorem classify_fallback_receives_url :
    classifyHeuristic "https://example.pl/page".data = none ∧
    classify_document "https://example.pl/page".data "Tytul".data
        (fun _ _ => DocType.Forms) =
      (DocType.Forms, some ("https://example.pl/page".data, "Tytul".data)) :=
  ⟨by decide, by decide⟩

/-- Claim C1 counterexample: in the PDF batch the `try` wraps the whole
loop, so after the first failing file the remaining files are not
processed. The same good file `b.pdf` is scraped, stored, and marked
visited when it is the whole batch, yet is untouched when it follows a
failing `a.pdf` — the loop does not continue, refuting the claim that
every subsequent item in the batch is still processed. -/
theorem pdf_batch_abort_counterexample :
    runPdf ⟨100, true⟩ ⟨[], [], 0⟩ [⟨"b.pdf", true, false, false, "tekst".data⟩] =
      ⟨["b.pdf"], [("b.pdf", "tekst".data)], 1⟩ ∧
    runPdf ⟨100, true⟩ ⟨[], [], 0⟩
        [⟨"a.pdf", true, true, false, "tekst".data⟩,
         ⟨"b.pdf", true, false, false, "tekst".data⟩] =
      ⟨[], [], 0⟩ :=
  ⟨by decide, by decide⟩

/-- Claim C1 (amended): in the URL batch a per-item failure is fully
isolated — a failing item leaves the run exactly as if it had not been
in the batch (in particular its provenance is never added to the visited
ledger and every other item is processed normally), and an item whose
persistence call raises is likewise not marked visited; in the PDF batch
the failing item's provenance is not appended and the function returns
without raising, but the remaining files of that batch are skipped. -/
theorem per_item_failure_isolation :
    (∀ (cfg : ScrapeConfig) (st : ScrapeState) (pre post : List UrlItem) (bad : UrlItem),
      bad.fails = true →
      runScraper cfg st (pre ++ bad :: post) = runScraper cfg st (pre ++ post)) ∧
    (∀ (cfg : ScrapeConfig) (st : ScrapeState) (it : UrlItem),
      it.persistFails = true → it.fails = false → cfg.allowDb = true →
      cfg.minTextLen < it.content.length → it.url ∉ st.visited →
      (scraperStep cfg st it).visited = st.visited) ∧
    (∀ (cfg : ScrapeConfig) (st : ScrapeState) (bad : PdfItem) (rest : List PdfItem),
      bad.isPdf = true → bad.name ∉ st.visited → bad.fails = true →
      runPdf cfg st (bad :: rest) = st) :=
  ⟨fun cfg st pre post bad h => runScraper_skip_failed cfg st pre post bad h,
   fun cfg st it hp hf hdb hlen hv => scraperStep_persist_visited cfg st it hp hf hdb hlen hv,
   fun cfg st bad rest hp hv hf => runPdf_fails cfg st bad rest hp hv hf⟩

/-- Witness for C1 (amended) on concrete three-item batches. -/
theorem per_item_failure_isolation_witness :
    runScraper ⟨100, true⟩ ⟨[], [], 0⟩
        ([⟨"u1", false, false, "t", "abc".data⟩] ++
          ⟨"u2", true, false, "t", "abc".data⟩ :: [⟨"u3", false, false, "t", "abc".data⟩]) =
      runScraper ⟨100, true⟩ ⟨[], [], 0⟩
        ([⟨"u1", false, false, "t", "abc".data⟩] ++ [⟨"u3", false, false, "t", "abc".data⟩]) ∧
    (scraperStep ⟨2, true⟩ ⟨[], [], 0⟩ ⟨"u4", false, true, "t", "abcd".data⟩).visited = [] ∧
    runPdf ⟨100, true⟩ ⟨[], [], 0⟩ [⟨"a.pdf", true, true, false, "x".data⟩] = ⟨[], [], 0⟩ :=
  ⟨per_item_failure_isolation.1 _ _ _ _ _ rfl,
   per_item_failure_isolation.2.1 _ _ _ rfl rfl rfl (by decide) (by decide),
   per_item_failure_isolation.2.2 _ _ _ _ rfl (by decide) rfl⟩

/-- Claim C6 counterexample: the PDF batch has no minimum-length gate —
a successfully scraped file whose cleaned content is 6 characters long
(below the 100-character minimum) is still handed to the persistence
collaborator and marked visited, refuting the claimed equivalence. -/
theorem pdf_short_content_stored :
    runPdf ⟨100, true⟩ ⟨[], [], 0⟩ [⟨"s.pdf", true, false, false, "krotki".data⟩] =
      ⟨["s.pdf"], [("s.pdf", "krotki".data)], 1⟩ ∧
    ¬ (100 < ("krotki".data : List Char).length) :=
  ⟨by decide, by decide⟩

/-- Claim C6 (amended): in the URL batch with database access enabled, a
record is handed to the persistence collaborator exactly when the
cleaned content is strictly longer than `min_text_len`; a too-short item
stores nothing but is still appended to the visited ledger. The PDF
batch hands every successfully scraped record to persistence regardless
of content length. -/
theorem length_gate_spec :
    (∀ (cfg : ScrapeConfig) (st : ScrapeState) (it : UrlItem),
      cfg.allowDb = true → it.fails = false → it.url ∉ st.visited →
      ((scraperStep cfg st it).db = st.db ++ [(it.url, it.content)] ↔
        cfg.minTextLen < it.content.length)) ∧
    (∀ (cfg : ScrapeConfig) (st : ScrapeState) (it : UrlItem),
      it.fails = false → it.url ∉ st.visited → ¬ cfg.minTextLen < it.content.length →
      (scraperStep cfg st it).db = st.db ∧
        (scraperStep cfg st it).visited = st.visited ++ [it.url]) ∧
    (∀ (cfg : ScrapeConfig) (st : ScrapeState) (it : PdfItem) (rest : List PdfItem),
      cfg.allowDb = true → it.isPdf = true → it.fails = false → it.persistFails = false →
      it.name ∉ st.visited →
      runPdf cfg st (it :: rest) =
        runPdf cfg ⟨st.visited ++ [it.name], st.db ++ [(it.name, it.content)], st.count + 1⟩
          rest) :=
  ⟨fun cfg st it hdb hf hv => scraperStep_db_iff cfg st it hdb hf hv,
   fun cfg st it hf hv hlen => scraperStep_short cfg st it hf hv hlen,
   fun cfg st it rest hdb hp hf hpf hv => runPdf_hands_record cfg st it rest hdb hp hf hpf hv⟩

/-- Witness for C6 (amended) on concrete items. -/
theorem length_gate_spec_witness :
    ((scraperStep ⟨2, true⟩ ⟨[], [], 0⟩ ⟨"u", false, false, "t", "abcd".data⟩).db =
      [] ++ [("u", "abcd".data)] ↔ 2 < ("abcd".data : List Char).length) ∧
    ((scraperStep ⟨9, true⟩ ⟨[], [], 0⟩ ⟨"v", false, false, "t", "ab".data⟩).db = [] ∧
      (scraperStep ⟨9, true⟩ ⟨[], [], 0⟩ ⟨"v", false, false, "t", "ab".data⟩).visited =
        [] ++ ["v"]) ∧
    runPdf ⟨100, true⟩ ⟨[], [], 0⟩ [⟨"p.pdf", true, false, false, "ab".data⟩] =
      runPdf ⟨100, true⟩ ⟨[] ++ ["p.pdf"], [] ++ [("p.pdf", "ab".data)], 0 + 1⟩ [] :=
  ⟨length_gate_spec.1 _ _ _ rfl rfl (by decide),
   length_gate_spec.2.1 _ _ _ rfl (by decide) (by decide),
   length_gate_spec.2.2 _ _ _ _ rfl rfl rfl rfl (by decide)⟩

/-- Witness for C5 at a concrete Polish sentence containing filtered
characters, repeated blanks, and surrounding whitespace. -/
theorem remove_special_characters_idem_witness :
    isEmojiModel '\n' = false ∧
    remove_special_characters isEmojiModel (remove_special_characters isEmojiModel
      "  Ala ma  kota!\n\n\n\n I psa$ tez  ".data) =
      remove_special_characters isEmojiModel "  Ala ma  kota!\n\n\n\n I psa$ tez  ".data :=
  ⟨by decide, remove_special_characters_idem isEmojiModel _ (by decide)⟩

/-- Claim C9 counterexample: the normalizer leaves `"a  b"` (two spaces)
unchanged instead of collapsing the run to a single space, and leaves a
trailing space before a newline, so it neither collapses every
whitespace run to one space nor trims each line. -/
theorem subBlank_of_no_nl (l : List Char) (h : '\n' ∉ l) : subBlank l = l := by
  induction l with
  | nil => exact subBlank_nil
  | cons c rest ih =>
    have hc : ¬ c = '\n' := fun hc => h (by simp [hc])
    rw [subBlank_cons_not rest hc, ih fun hm => h (List.mem_cons_of_mem _ hm)]

theorem normalizer_no_intraline_collapse :
    remove_special_characters isEmojiModel "a  b".data = "a  b".data ∧
    remove_special_characters isEmojiModel "a  b".data ≠ "a b".data ∧
    remove_special_characters isEmojiModel "a \nb".data = "a \nb".data := by
  have e1 : remove_special_characters isEmojiModel "a  b".data = "a  b".data := by
    rw [remove_special_characters,
      show ("a  b".data.filter allowedChar).filter (fun c => !isEmojiModel c) =
        "a  b".data by decide,
      subBlank_of_no_nl _ (by decide)]
    decide
  have e2 : remove_special_characters isEmojiModel "a \nb".data = "a \nb".data := by
    rw [remove_special_characters,
      show ("a \nb".data.filter allowedChar).filter (fun c => !isEmojiModel c) =
        "a \nb".data by decide]
    have hsb : subBlank "a \nb".data = "a \nb".data := by
      show subBlank ('a' :: ' ' :: '\n' :: 'b' :: []) = 'a' :: ' ' :: '\n' :: 'b' :: []
      rw [subBlank_cons_not _ (by decide), subBlank_cons_not _ (by decide),
        subBlank_cons_nl_none _ (by decide), subBlank_cons_not _ (by decide), subBlank_nil]
    rw [hsb]
    decide
  exact ⟨e1, by rw [e1]; decide, e2⟩

/-- Witness for C7 (amended): a single whitespace token, no sentences. -/
theorem metrics_zero_words_witness :
    (∀ t ∈ [(⟨" ".data, " ", "SPACE", false, true⟩ : SpacyToken)], t.isPunct || t.isSpace) ∧
    (get_metrics " ".data [⟨" ".data, " ", "SPACE", false, true⟩] [] 3).avgWordLength = 0 :=
  ⟨by decide,
   (metrics_zero_words " ".data [⟨" ".data, " ", "SPACE", false, true⟩] [] 3 (by decide)).2.1⟩

/-- Witness for C3: `"szkoła w poznaniu statut liceum w toruniu"` with an
ORG entity `szkoła` closed by the PLACE `toruniu` (the PLACE window also
carries a statute-style match `liceum w toruniu`); the extractor returns
the ORG-anchored slice. -/
theorem extract_org_precedence_witness :
    ∃ o ∈ scanOrgs (fun _ => false)
        [⟨.orgName, "szkoła".data, 0⟩, ⟨.placeName, "poznaniu".data, 9⟩,
         ⟨.placeName, "toruniu".data, 34⟩],
      orgMatchesB "szkoła w poznaniu statut liceum w toruniu".data o = true ∧
      extractInstitution (fun _ => false) "szkoła w poznaniu statut liceum w toruniu".data
          [⟨.orgName, "szkoła".data, 0⟩, ⟨.placeName, "poznaniu".data, 9⟩,
           ⟨.placeName, "toruniu".data, 34⟩] =
        some (orgSpan "szkoła w poznaniu statut liceum w toruniu".data o) :=
  extract_org_precedence _ _ _ (by decide) (by decide) (by decide)

/-- Claim C4 counterexample: an ORG whose 50-character span ends at
character 50, followed by a PLACE starting at character 95. The end of
the ORG span is 45 characters from the PLACE — within the claimed
90-character window — yet the scan discards the candidate, because the
source measures `place_index - org_ind` from the ORG's **start** (95 ≥
90). -/
theorem org_window_end_counterexample :
    (scanOrgs (fun _ => false)
        [⟨.orgName, List.replicate 50 'a', 0⟩, ⟨.placeName, "x".data, 95⟩]).map
      (fun o => (o.name, o.start)) ≠
      keptOrgsClaim [⟨.orgName, List.replicate 50 'a', 0⟩, ⟨.placeName, "x".data, 95⟩] ∧
    (scanOrgs (fun _ => false)
        [⟨.orgName, List.replicate 50 'a', 0⟩, ⟨.placeName, "x".data, 95⟩]).map
      (fun o => (o.name, o.start)) = [] ∧
    keptOrgsClaim [⟨.orgName, List.replicate 50 'a', 0⟩, ⟨.placeName, "x".data, 95⟩] =
      [(List.replicate 50 'a', 0)] :=
  ⟨by decide, by decide, by decide⟩

/-- Witness for C4 (amended): a two-entity sequence where the PLACE
starts 9 characters after the ORG's start, so the candidate is kept. -/
theorem scan_keeps_iff_witness :
    (scanOrgs (fun _ => false)
        [⟨.orgName, "szkoła".data, 0⟩, ⟨.placeName, "poznaniu".data, 9⟩]).map
      (fun o => (o.name, o.start)) =
      keptOrgsCode [⟨.orgName, "szkoła".data, 0⟩, ⟨.placeName, "poznaniu".data, 9⟩] :=
  scan_keeps_iff _ _ (by decide)

end UniScrape
